import Mathlib

/-!
Verification development for the `golinks` link store (`src/store.go`).

The store is a `FileStore`: an append-only log file, an in-memory cache
(a Go `map[string]string`), an `order` slice recording every written key,
and an optional `fuzzy` lookup mode.  We embed the store shallowly:

* the Go map becomes a function `String → Option String`;
* the backing file becomes its contents, a `List Char`;
* `bufio.Scanner` line splitting and `strings.Split` become executable
  character-level splitters (`splitLines`, `splitOnChar`);
* `Set`'s fallible `WriteString` is modelled by a `writeOk : Bool`
  parameter: the code returns the error before mutating any state;
* Go's `strings.ToLower` is modelled per character by `Char.toLower`
  (the ASCII case mapping, which agrees with Go on ASCII keys).

Definitions are translated from `src/store.go`; the one definition taken
from the specification's words instead (`specNormalize`) is marked as such
and compared with the source's `fuzz`.
-/

namespace GoLinks

/-- Keys/links that survive the line-oriented log format unchanged:
no space (the field separator), no newline (the record terminator) and
no carriage return (stripped by `bufio.ScanLines`'s `dropCR`). -/
def cleanChar (c : Char) : Bool :=
  !(c == ' ' || c == '\n' || c == '\r')

/-- A string all of whose characters are `cleanChar`. -/
def cleanStr (x : String) : Bool :=
  x.data.all cleanChar

/-- Every key and link of a write sequence is `cleanStr`. -/
def cleanWrites (ws : List (String × String)) : Bool :=
  ws.all (fun w => cleanStr w.1 && cleanStr w.2)

/-- `fuzz` from store.go line 188-190:
`strings.ToLower(strings.Replace(strings.Replace(name, "-", "", -1), "_", "", -1))`.
`strings.Replace` with a one-character pattern, empty replacement and
count `-1` removes every occurrence of that character, i.e. filters it
out; `strings.ToLower` then lower-cases each character. -/
def fuzz (name : String) : String :=
  String.mk (((name.data.filter (fun c => c != '-')).filter (fun c => c != '_')).map Char.toLower)

/-- Modelled from the spec: "Normalization rule: lower-case the key, then
remove all `-` and `_` characters" (§4.2).  Stated in the spec's order of
operations, to be compared with the source's `fuzz`. -/
def specNormalize (name : String) : String :=
  String.mk (((name.data.map Char.toLower).filter (fun c => c != '-')).filter (fun c => c != '_'))

/-- The `FileStore` struct (store.go lines 19-25).  The `*os.File` handle
is modelled by the file's contents; the mutex does not exist in this
sequential embedding. -/
@[ext]
structure FileStore where
  fuzzy : Bool
  order : List String
  cache : String → Option String
  file : List Char

/-- Go map assignment `m[k] = v`. -/
def mapIns (m : String → Option String) (k v : String) : String → Option String :=
  fun q => if q = k then some v else m q

/-- Go map deletion `delete(m, k)`. -/
def mapDel (m : String → Option String) (k : String) : String → Option String :=
  fun q => if q = k then none else m q

/-- Go map read `v, ok := m[k]`: a missing key yields the zero value `""`
and `ok = false`. -/
def mapRead (m : String → Option String) (k : String) : String × Bool :=
  match m k with
  | some v => (v, true)
  | none => ("", false)

/-- The cache update performed by `FileStore.set` (store.go lines 171-186):
an empty link deletes the key, otherwise it is assigned; in fuzzy mode the
same is done for the fuzzed key. -/
def setCache (fz : Bool) (m : String → Option String) (name link : String) :
    String → Option String :=
  let m1 := if link = "" then mapDel m name else mapIns m name link
  if fz then
    if link = "" then mapDel m1 (fuzz name) else mapIns m1 (fuzz name) link
  else m1

/-- `FileStore.set` (store.go lines 171-186): mutates only the cache. -/
def FileStore.set (s : FileStore) (name link : String) : FileStore :=
  { s with cache := setCache s.fuzzy s.cache name link }

/-- `FileStore.get` (store.go lines 163-169): exact lookup, then the fuzzed
key if the exact lookup missed or hit an empty string and fuzzy mode is on. -/
def FileStore.get (s : FileStore) (name : String) : String × Bool :=
  let p := mapRead s.cache name
  if (!p.2 || p.1 == "") && s.fuzzy then mapRead s.cache (fuzz name) else p

/-- `FileStore.Get` (store.go lines 92-101): returns `("", false)` unless
the inner lookup found a non-empty link. -/
def FileStore.Get (s : FileStore) (name : String) : String × Bool :=
  let p := s.get name
  if !p.2 || p.1 == "" then ("", false) else (p.1, true)

/-- The log line `fmt.Sprintf("%s %s\n", name, link)` appended by `Set`.
A tombstone (`link = ""`) is written as `name ++ " \n"`. -/
def record (name link : String) : List Char :=
  name.data ++ ' ' :: (link.data ++ ['\n'])

/-- A record as the scanner reads it back: without the trailing newline. -/
def recordLine (name link : String) : List Char :=
  name.data ++ ' ' :: link.data

/-- `FileStore.Set` (store.go lines 103-114).  `writeOk` models whether
`file.WriteString` succeeds; on failure the method returns the error
before touching `order` or the cache.  The `Bool` result is `true` for
the `nil`-error return, `false` for the error return. -/
def FileStore.Set (s : FileStore) (name link : String) (writeOk : Bool) :
    FileStore × Bool :=
  if writeOk then
    (FileStore.set
      { s with file := s.file ++ record name link, order := s.order ++ [name] }
      name link, true)
  else (s, false)

/-- The loop of `FileStore.Iterate` (store.go lines 116-135): walk the
order slice from its last element down, mark every key seen, and invoke
the callback on first-seen keys whose `get` succeeds.  The first list
argument is the remaining (already reversed) order suffix, the second the
`seen` set.  We collect the visited `(name, link)` pairs. -/
def iterGo (s : FileStore) : List String → List String → List (String × String)
  | [], _ => []
  | k :: rest, seen =>
    if k ∈ seen then iterGo s rest (k :: seen)
    else
      if (s.get k).2 then (k, (s.get k).1) :: iterGo s rest (k :: seen)
      else iterGo s rest (k :: seen)

/-- `FileStore.Iterate` as the list of `(name, link)` pairs passed to the
callback, in visiting order. -/
def FileStore.Iterate (s : FileStore) : List (String × String) :=
  iterGo s s.order.reverse []

/-- `FileStore.Dump` (store.go lines 138-161): collect one line per pair
yielded by `Iterate`, then write the collected lines in reverse order.
The result is the dumped file's contents. -/
def FileStore.Dump (s : FileStore) : List Char :=
  ((s.Iterate.map (fun p => record p.1 p.2)).reverse).flatten

/-- `dropCR` from `bufio.ScanLines`: strip one trailing carriage return. -/
def dropCR (l : List Char) : List Char :=
  if l.getLast? = some '\r' then l.dropLast else l

/-- `bufio.Scanner` with `ScanLines`: tokens are the newline-separated
segments (each passed through `dropCR`); a final segment not terminated
by a newline is still a token, but a trailing newline does not produce an
empty final token.  `acc` holds the current segment reversed. -/
def splitLinesGo (acc : List Char) : List Char → List (List Char)
  | [] => if acc.isEmpty then [] else [dropCR acc.reverse]
  | c :: rest =>
    if c = '\n' then dropCR acc.reverse :: splitLinesGo [] rest
    else splitLinesGo (c :: acc) rest

/-- All scanner tokens of a file's contents. -/
def splitLines (cs : List Char) : List (List Char) :=
  splitLinesGo [] cs

/-- `strings.Split(s, sep)` for a single-character separator: the segments
between occurrences of `sep` (always at least one segment). -/
def splitOnGo (sep : Char) (acc : List Char) : List Char → List (List Char)
  | [] => [acc.reverse]
  | c :: rest =>
    if c = sep then acc.reverse :: splitOnGo sep [] rest
    else splitOnGo sep (c :: acc) rest

/-- `strings.Split(line, " ")`. -/
def splitOnChar (sep : Char) (cs : List Char) : List (List Char) :=
  splitOnGo sep [] cs

/-- One iteration of `Open`'s scanner loop (store.go lines 50-61): split
the line on spaces, append the first field to `order`, then apply `set`
for one or two fields; `none` models the `invalid line in ...` error
return (the whole open fails, no store is produced). -/
def replayLine (s : FileStore) (line : List Char) : Option FileStore :=
  match splitOnChar ' ' line with
  | [k] =>
    some (FileStore.set { s with order := s.order ++ [String.mk k] } (String.mk k) "")
  | [k, l] =>
    some (FileStore.set { s with order := s.order ++ [String.mk k] } (String.mk k) (String.mk l))
  | _ => none

/-- `Open`'s scanner loop over all lines. -/
def replay (s : FileStore) : List (List Char) → Option FileStore
  | [] => some s
  | line :: rest =>
    match replayLine s line with
    | some t => replay t rest
    | none => none

/-- `Open(filename, fuzzy)` (store.go lines 32-82, compaction disabled,
operating-system errors aside) applied to a file with contents `f`: start
from an empty store whose handle sits at the end of `f` (the file is
opened with `O_APPEND`) and replay every line. -/
def openChars (fz : Bool) (f : List Char) : Option FileStore :=
  replay { fuzzy := fz, order := [], cache := fun _ => none, file := f } (splitLines f)

/-- The store `Open` yields for a missing or empty file. -/
def emptyStore (fz : Bool) : FileStore :=
  { fuzzy := fz, order := [], cache := fun _ => none, file := [] }

/-- A sequence of successful `Set` calls. -/
def applySets (s : FileStore) (ws : List (String × String)) : FileStore :=
  ws.foldl (fun t w => (FileStore.Set t w.1 w.2 true).1) s

/-- The concatenated log produced by a write sequence. -/
def concatRecords (ws : List (String × String)) : List Char :=
  (ws.map (fun w => record w.1 w.2)).flatten

/-- First-occurrence deduplication, as performed by `Iterate`'s `seen`
map: keep each key of the first list the first time it appears, skipping
keys already in the second list. -/
def dedupKeys : List String → List String → List String
  | [], _ => []
  | k :: rest, seen =>
    if k ∈ seen then dedupKeys rest (k :: seen)
    else k :: dedupKeys rest (k :: seen)

/-- The currently-live keys, most recently written first: the keys of the
order slice, deduplicated from the most recent end, that have a cache
entry. -/
def liveKeys (s : FileStore) : List String :=
  (dedupKeys s.order.reverse []).filter (fun k => (s.cache k).isSome)

/-- The most recent write whose key fuzzes to `n`. -/
def lastWrite (n : String) (ws : List (String × String)) : Option (String × String) :=
  ws.reverse.find? (fun w => fuzz w.1 == n)

/-- One write as performed by `Open`'s replay loop: append the key to the
order slice and apply `set`.  A successful `Set` is `writeStep` plus the
log append. -/
def writeStep (s : FileStore) (w : String × String) : FileStore :=
  FileStore.set { s with order := s.order ++ [w.1] } w.1 w.2

/-- The cache alone after a sequence of `set`s. -/
def cacheFold (fz : Bool) (m : String → Option String)
    (ws : List (String × String)) : String → Option String :=
  ws.foldl (fun m w => setCache fz m w.1 w.2) m

theorem mapRead_some {m : String → Option String} {k v : String}
    (h : m k = some v) : mapRead m k = (v, true) := by
  simp [mapRead, h]

theorem mapRead_none {m : String → Option String} {k : String}
    (h : m k = none) : mapRead m k = ("", false) := by
  simp [mapRead, h]

/-- Pointwise value of the cache after one `set`. -/
theorem setCache_eval (fz : Bool) (m : String → Option String) (name link q : String) :
    setCache fz m name link q =
      if fz = true ∧ q = fuzz name then (if link = "" then none else some link)
      else if q = name then (if link = "" then none else some link)
      else m q := by
  cases fz <;> by_cases hq : q = fuzz name <;> by_cases hqn : q = name <;>
    by_cases hl : link = "" <;> simp [setCache, mapIns, mapDel, hq, hqn, hl]

/-- An exact, non-empty cache hit is returned by `get` without any fuzzy
fallback, in both modes. -/
theorem get_exact {s : FileStore} {n v : String}
    (h : s.cache n = some v) (hv : v ≠ "") : s.get n = (v, true) := by
  have hb : (v == "") = false := beq_eq_false_iff_ne.mpr hv
  simp [FileStore.get, mapRead_some h, hb]

/-- In non-fuzzy mode `get` is exactly the map read. -/
theorem get_nonfuzzy {s : FileStore} (h : s.fuzzy = false) (n : String) :
    s.get n = mapRead s.cache n := by
  simp [FileStore.get, h]

/-- In fuzzy mode a missing exact key falls back to the fuzzed key. -/
theorem get_fuzzy_miss {s : FileStore} {n : String} (h : s.fuzzy = true)
    (h2 : s.cache n = none) : s.get n = mapRead s.cache (fuzz n) := by
  simp [FileStore.get, h, mapRead_none h2]

/-- In fuzzy mode an exact hit on an empty string also falls back. -/
theorem get_fuzzy_empty {s : FileStore} {n : String} (h : s.fuzzy = true)
    (h2 : s.cache n = some "") : s.get n = mapRead s.cache (fuzz n) := by
  simp [FileStore.get, h, mapRead_some h2]

theorem Get_of_get_true {s : FileStore} {n v : String}
    (h : s.get n = (v, true)) (hv : v ≠ "") : s.Get n = (v, true) := by
  have hb : (v == "") = false := beq_eq_false_iff_ne.mpr hv
  simp [FileStore.Get, h, hb]

theorem Get_of_get_false {s : FileStore} {n : String}
    (h : (s.get n).2 = false) : s.Get n = ("", false) := by
  simp [FileStore.Get, h]

theorem Get_of_get_empty {s : FileStore} {n : String}
    (h : (s.get n).1 = "") : s.Get n = ("", false) := by
  simp [FileStore.Get, h]

/-- The state after a successful `Set`, spelled out. -/
theorem Set_ok (s : FileStore) (name link : String) :
    (FileStore.Set s name link true).1 =
      { fuzzy := s.fuzzy,
        order := s.order ++ [name],
        cache := setCache s.fuzzy s.cache name link,
        file := s.file ++ record name link } := rfl

/-- Core of the `Set`-then-`Get` round trip, shared by several results. -/
theorem set_get_aux (s : FileStore) (k L : String) (hL : L ≠ "") :
    ((FileStore.Set s k L true).1).Get k = (L, true) := by
  have hc : ((FileStore.Set s k L true).1).cache k = some L := by
    show setCache s.fuzzy s.cache k L k = some L
    rw [setCache_eval]
    split_ifs with h1 h2 <;> simp [hL] at *
  exact Get_of_get_true (get_exact hc hL) hL

/-- C1: after a successful `Set(k, L)` with `L ≠ ""`, `Get(k)` returns
`(L, true)` — in both fuzzy and non-fuzzy mode, from any prior state. -/
theorem C1_set_then_get (s : FileStore) (k L : String) (hL : L ≠ "") :
    ((FileStore.Set s k L true).1).Get k = (L, true) :=
  set_get_aux s k L hL

/-- C1 witness. -/
theorem C1_set_then_get_w :
    ((FileStore.Set (emptyStore true) "a" "x" true).1).Get "a" = ("x", true) :=
  C1_set_then_get (emptyStore true) "a" "x" (by decide)

/-- C4: when the log append inside `Set` fails, `Set` returns the error
and the whole state — cache, order and file — is exactly as before; the
store remains usable (later calls behave as on the original store). -/
theorem C4_failed_set_no_mutation (s : FileStore) (n l : String) :
    FileStore.Set s n l false = (s, false) ∧
    ((FileStore.Set s n l false).1).cache = s.cache ∧
    ((FileStore.Set s n l false).1).order = s.order ∧
    ((FileStore.Set s n l false).1).file = s.file ∧
    (∀ q, ((FileStore.Set s n l false).1).Get q = s.Get q) ∧
    (∀ n' l' ok, ((FileStore.Set s n l false).1).Set n' l' ok = s.Set n' l' ok) :=
  ⟨rfl, rfl, rfl, rfl, fun _ => rfl, fun _ _ _ => rfl⟩

/-- C8: after `Set(k, "")`, `Get(k)` returns `("", false)` and `k` is
absent from the cache (not mapped to an empty string) — from any prior
state, in both modes. -/
theorem C8_tombstone_get_false (s : FileStore) (k : String) :
    ((FileStore.Set s k "" true).1).Get k = ("", false) ∧
    ((FileStore.Set s k "" true).1).cache k = none := by
  have hck : ((FileStore.Set s k "" true).1).cache k = none := by
    show setCache s.fuzzy s.cache k "" k = none
    rw [setCache_eval]
    split_ifs <;> simp_all
  refine ⟨?_, hck⟩
  by_cases hf : s.fuzzy = true
  · have hff : ((FileStore.Set s k "" true).1).fuzzy = true := hf
    have hcf : ((FileStore.Set s k "" true).1).cache (fuzz k) = none := by
      show setCache s.fuzzy s.cache k "" (fuzz k) = none
      rw [setCache_eval]
      simp [hf]
    have hg := get_fuzzy_miss hff hck
    rw [mapRead_none hcf] at hg
    exact Get_of_get_false (by rw [hg])
  · have hff : ((FileStore.Set s k "" true).1).fuzzy = false := by
      show s.fuzzy = false
      simpa using hf
    have hg := get_nonfuzzy hff k
    rw [mapRead_none hck] at hg
    exact Get_of_get_false (by rw [hg])

theorem applySets_nil (s : FileStore) : applySets s [] = s := rfl

theorem applySets_cons (s : FileStore) (w : String × String) (ws : List (String × String)) :
    applySets s (w :: ws) = applySets ((FileStore.Set s w.1 w.2 true).1) ws := rfl

/-- One `set` never stores an empty-string link. -/
theorem setCache_no_empty {m : String → Option String}
    (hm : ∀ q, m q ≠ some "") (fz : Bool) (n l q : String) :
    setCache fz m n l q ≠ some "" := by
  rw [setCache_eval]
  split_ifs with h1 h2 h3 h4 <;> simp_all

/-- Sequences of successful `Set`s preserve the no-empty-link property. -/
theorem applySets_cache_no_empty (ws : List (String × String)) :
    ∀ s : FileStore, (∀ q, s.cache q ≠ some "") →
      ∀ q, (applySets s ws).cache q ≠ some "" := by
  induction ws with
  | nil => intro s hs q; exact hs q
  | cons w rest ih =>
    intro s hs q
    rw [applySets_cons]
    refine ih _ (fun r => ?_) q
    show setCache s.fuzzy s.cache w.1 w.2 r ≠ some ""
    exact setCache_no_empty hs s.fuzzy w.1 w.2 r

/-- C9: `Get` never returns `found = true` together with an empty link —
for any state at all, by the guard in `Get` itself — and in every state
reachable by `Set`s from an empty store the cache holds no empty-string
link (the parenthetical invariant). -/
theorem C9_no_empty_link :
    (∀ (s : FileStore) (n : String), (s.Get n).2 = true → (s.Get n).1 ≠ "") ∧
    (∀ (fz : Bool) (ws : List (String × String)) (k : String),
      (applySets (emptyStore fz) ws).cache k ≠ some "") := by
  constructor
  · intro s n h
    by_cases hc : (!(s.get n).2 || (s.get n).1 == "") = true
    · simp [FileStore.Get, hc] at h
    · have hc2 := hc
      simp only [Bool.or_eq_true, Bool.not_eq_true', beq_iff_eq, not_or] at hc2
      simp [FileStore.Get, hc]
      exact hc2.2
  · intro fz ws k
    exact applySets_cache_no_empty ws (emptyStore fz) (fun q => by simp [emptyStore]) k

/-- C9 witness: a concrete state where `Get` finds a key, whose link is
then provably non-empty. -/
theorem C9_no_empty_link_w :
    (((FileStore.Set (emptyStore false) "a" "x" true).1).Get "a").1 ≠ "" :=
  C9_no_empty_link.1 ((FileStore.Set (emptyStore false) "a" "x" true).1) "a" (by decide)

/-- `Char.toLower` moves nothing onto a character that is not a lower-case
ASCII letter and is itself fixed by `toLower`. -/
theorem toLower_eq_iff_of_not_lower {c d : Char} (hd1 : Char.toLower d = d)
    (hd2 : d.toNat < 97 ∨ 122 < d.toNat) : Char.toLower c = d ↔ c = d := by
  constructor
  · intro h
    rw [Char.toLower] at h
    split at h
    · rename_i hn
      have h2 := congrArg Char.toNat h
      have hv : (c.toNat + 32).isValidChar := Or.inl (by omega)
      rw [Char.ofNat, dif_pos hv] at h2
      have h3 : c.toNat + 32 = d.toNat := h2
      omega
    · exact h
  · intro h; subst h; exact hd1

/-- Filtering out a `toLower`-fixed non-letter commutes with lower-casing. -/
theorem filter_toLower_comm (d : List Char) (t : Char) (hd1 : Char.toLower t = t)
    (hd2 : t.toNat < 97 ∨ 122 < t.toNat) :
    (d.map Char.toLower).filter (fun c => c != t) =
      (d.filter (fun c => c != t)).map Char.toLower := by
  rw [List.filter_map]
  congr 1
  apply List.filter_congr
  intro c _
  show (Char.toLower c != t) = (c != t)
  by_cases hc : c = t
  · subst hc; simp [hd1]
  · have hct : Char.toLower c ≠ t := fun h =>
      hc ((toLower_eq_iff_of_not_lower hd1 hd2).mp h)
    simp [bne, beq_eq_false_iff_ne.mpr hct, beq_eq_false_iff_ne.mpr hc]

/-- The source's normalization (`fuzz`: remove `-` and `_`, then
lower-case) agrees with the spec's rule (lower-case, then remove). -/
theorem fuzz_eq_specNormalize (k : String) : fuzz k = specNormalize k := by
  unfold fuzz specNormalize
  rw [filter_toLower_comm k.data '-' (by decide) (by decide)]
  rw [filter_toLower_comm (k.data.filter (fun c => c != '-')) '_' (by decide) (by decide)]

/-- C6: the normalized form of a key is the key lower-cased with `-` and
`_` removed (write-time and read-time normalization are the same `fuzz`),
and after `Set("Go-Links", L)` on an empty fuzzy store, `Get` finds `L`
under `"golinks"`, `"GOLINKS"` and `"go_links"`. -/
theorem C6_fuzzy_aliases :
    (∀ k, fuzz k = specNormalize k) ∧
    ∀ L, L ≠ "" → ' ' ∉ L.data →
      ((FileStore.Set (emptyStore true) "Go-Links" L true).1).Get "golinks" = (L, true) ∧
      ((FileStore.Set (emptyStore true) "Go-Links" L true).1).Get "GOLINKS" = (L, true) ∧
      ((FileStore.Set (emptyStore true) "Go-Links" L true).1).Get "go_links" = (L, true) := by
  refine ⟨fuzz_eq_specNormalize, ?_⟩
  intro L hL _
  have hfz : fuzz "Go-Links" = "golinks" := by decide
  have hgl : ((FileStore.Set (emptyStore true) "Go-Links" L true).1).cache "golinks" = some L := by
    show setCache true (fun _ => none) "Go-Links" L "golinks" = some L
    rw [setCache_eval, hfz]
    simp [hL]
  have hmain : ∀ n : String, n ≠ "golinks" → n ≠ "Go-Links" → fuzz n = "golinks" →
      ((FileStore.Set (emptyStore true) "Go-Links" L true).1).Get n = (L, true) := by
    intro n h1 h2 h3
    have hmiss : ((FileStore.Set (emptyStore true) "Go-Links" L true).1).cache n = none := by
      show setCache true (fun _ => none) "Go-Links" L n = none
      rw [setCache_eval, hfz]
      simp [h1, h2]
    have hfuzzy : ((FileStore.Set (emptyStore true) "Go-Links" L true).1).fuzzy = true := rfl
    have hg := get_fuzzy_miss hfuzzy hmiss
    rw [h3, mapRead_some hgl] at hg
    exact Get_of_get_true hg hL
  refine ⟨?_, ?_, ?_⟩
  · exact Get_of_get_true (get_exact hgl hL) hL
  · exact hmain "GOLINKS" (by decide) (by decide) (by decide)
  · exact hmain "go_links" (by decide) (by decide) (by decide)

/-- C6 witness: the three aliases resolve after `Set("Go-Links", "x")`. -/
theorem C6_fuzzy_aliases_w :
    fuzz "Go-Links" = specNormalize "Go-Links" ∧
    ((FileStore.Set (emptyStore true) "Go-Links" "x" true).1).Get "golinks" = ("x", true) ∧
    ((FileStore.Set (emptyStore true) "Go-Links" "x" true).1).Get "GOLINKS" = ("x", true) ∧
    ((FileStore.Set (emptyStore true) "Go-Links" "x" true).1).Get "go_links" = ("x", true) :=
  ⟨C6_fuzzy_aliases.1 "Go-Links",
    C6_fuzzy_aliases.2 "x" (by decide) (by decide)⟩

theorem applySets_fuzzy (ws : List (String × String)) :
    ∀ s : FileStore, (applySets s ws).fuzzy = s.fuzzy := by
  induction ws with
  | nil => intro s; rfl
  | cons w rest ih => intro s; rw [applySets_cons]; exact ih _

theorem applySets_append_single (s : FileStore) (ws : List (String × String))
    (w : String × String) :
    applySets s (ws ++ [w]) = (FileStore.Set (applySets s ws) w.1 w.2 true).1 := by
  simp [applySets, List.foldl_append]

theorem lastWrite_append_single (n : String) (ws : List (String × String))
    (w : String × String) :
    lastWrite n (ws ++ [w]) =
      if fuzz w.1 == n then some w else lastWrite n ws := by
  cases h : fuzz w.1 == n <;>
    simp [lastWrite, List.reverse_append, List.find?_cons, h]

/-- C7: in fuzzy mode, after any write sequence from an empty store, a
normalized-form key `n` (a fixed point of `fuzz`) maps to the link of the
most recent write whose key normalizes to `n`, and is absent when that
write was a tombstone or no such write exists. -/
theorem C7_alias_invariant (ws : List (String × String)) (n : String)
    (hn : fuzz n = n) :
    (applySets (emptyStore true) ws).cache n =
      (match lastWrite n ws with
       | none => none
       | some w => if w.2 = "" then none else some w.2) := by
  induction ws using List.reverseRecOn with
  | nil => rfl
  | append_singleton ws w ih =>
    rw [applySets_append_single]
    have hfz : (applySets (emptyStore true) ws).fuzzy = true := applySets_fuzzy ws _
    have hc : ((FileStore.Set (applySets (emptyStore true) ws) w.1 w.2 true).1).cache n =
        setCache (applySets (emptyStore true) ws).fuzzy
          (applySets (emptyStore true) ws).cache w.1 w.2 n := rfl
    rw [hc, hfz, setCache_eval, lastWrite_append_single]
    by_cases hw : fuzz w.1 = n
    · have hb : (fuzz w.1 == n) = true := beq_iff_eq.mpr hw
      rw [if_pos ⟨rfl, hw.symm⟩, hb]
      simp
    · have hb : (fuzz w.1 == n) = false := beq_eq_false_iff_ne.mpr hw
      have hnw : n ≠ w.1 := fun e => hw (by rw [← e, hn])
      rw [if_neg (fun hcon => hw hcon.2.symm), if_neg hnw, hb, ih]
      simp

/-- C7 witness: writing `("A-B", "x")` populates the normalized form
`"ab"` with `"x"`. -/
theorem C7_alias_invariant_w :
    (applySets (emptyStore true) [("A-B", "x")]).cache "ab" =
      (match lastWrite "ab" [("A-B", "x")] with
       | none => none
       | some w => if w.2 = "" then none else some w.2) :=
  C7_alias_invariant [("A-B", "x")] "ab" (by decide)

theorem dedupKeys_not_mem_seen :
    ∀ (l seen : List String) (k : String), k ∈ dedupKeys l seen → k ∉ seen := by
  intro l
  induction l with
  | nil => intro seen k h; simp [dedupKeys] at h
  | cons a rest ih =>
    intro seen k h
    by_cases ha : a ∈ seen
    · rw [show dedupKeys (a :: rest) seen = dedupKeys rest (a :: seen) from by
        simp [dedupKeys, ha]] at h
      exact fun hk => ih (a :: seen) k h (List.mem_cons_of_mem a hk)
    · rw [show dedupKeys (a :: rest) seen = a :: dedupKeys rest (a :: seen) from by
        simp [dedupKeys, ha]] at h
      rcases List.mem_cons.mp h with he | hm
      · subst he; exact ha
      · exact fun hk => ih (a :: seen) k hm (List.mem_cons_of_mem a hk)

theorem dedupKeys_nodup : ∀ (l seen : List String), (dedupKeys l seen).Nodup := by
  intro l
  induction l with
  | nil => intro seen; simp [dedupKeys]
  | cons a rest ih =>
    intro seen
    by_cases ha : a ∈ seen
    · rw [show dedupKeys (a :: rest) seen = dedupKeys rest (a :: seen) from by
        simp [dedupKeys, ha]]
      exact ih _
    · rw [show dedupKeys (a :: rest) seen = a :: dedupKeys rest (a :: seen) from by
        simp [dedupKeys, ha]]
      refine List.nodup_cons.mpr ⟨?_, ih _⟩
      intro hmem
      exact (dedupKeys_not_mem_seen rest (a :: seen) a hmem) (List.mem_cons_self a seen)

theorem mem_dedupKeys : ∀ (l seen : List String) (k : String),
    k ∈ l → k ∉ seen → k ∈ dedupKeys l seen := by
  intro l
  induction l with
  | nil => intro seen k h; simp at h
  | cons a rest ih =>
    intro seen k hk hks
    by_cases ha : a ∈ seen
    · have hne : k ≠ a := fun e => hks (e ▸ ha)
      have hr : k ∈ rest := (List.mem_cons.mp hk).resolve_left hne
      rw [show dedupKeys (a :: rest) seen = dedupKeys rest (a :: seen) from by
        simp [dedupKeys, ha]]
      exact ih (a :: seen) k hr (fun h => (List.mem_cons.mp h).elim hne hks)
    · rw [show dedupKeys (a :: rest) seen = a :: dedupKeys rest (a :: seen) from by
        simp [dedupKeys, ha]]
      by_cases hka : k = a
      · exact hka ▸ List.mem_cons_self a _
      · have hr : k ∈ rest := (List.mem_cons.mp hk).resolve_left hka
        exact List.mem_cons_of_mem a
          (ih (a :: seen) k hr (fun h => (List.mem_cons.mp h).elim hka hks))

/-- In non-fuzzy mode the iteration loop yields, in order, the deduplicated
key sequence restricted to keys with a cache entry, paired with that entry. -/
theorem iterGo_nonfuzzy {s : FileStore} (hf : s.fuzzy = false) :
    ∀ (l seen : List String),
      iterGo s l seen =
        (dedupKeys l seen).filterMap (fun k => (s.cache k).map (fun v => (k, v))) := by
  intro l
  induction l with
  | nil => intro seen; rfl
  | cons a rest ih =>
    intro seen
    by_cases ha : a ∈ seen
    · simp only [iterGo, dedupKeys, if_pos ha]
      exact ih _
    · cases hca : s.cache a with
      | none =>
        have hget : (s.get a).2 = false := by rw [get_nonfuzzy hf, mapRead_none hca]
        simp only [iterGo, dedupKeys, if_neg ha, hget, List.filterMap_cons, hca,
          Option.map_none', Bool.false_eq_true, if_false]
        exact ih _
      | some v =>
        have hget : s.get a = (v, true) := by rw [get_nonfuzzy hf, mapRead_some hca]
        simp only [iterGo, dedupKeys, if_neg ha, hget, List.filterMap_cons, hca,
          Option.map_some', if_true]
        rw [ih _]

/-- In non-fuzzy mode every cached key appears in the order slice. -/
theorem applySets_cache_mem_order (ws : List (String × String)) :
    ∀ s : FileStore, s.fuzzy = false →
      (∀ q, s.cache q ≠ none → q ∈ s.order) →
      ∀ q, (applySets s ws).cache q ≠ none → q ∈ (applySets s ws).order := by
  induction ws with
  | nil => intro s _ hs q; exact hs q
  | cons w rest ih =>
    intro s hf hs q
    rw [applySets_cons]
    refine ih ((FileStore.Set s w.1 w.2 true).1) hf (fun r hr => ?_) q
    rw [show ((FileStore.Set s w.1 w.2 true).1).cache = setCache s.fuzzy s.cache w.1 w.2
      from rfl, setCache_eval, hf] at hr
    show r ∈ s.order ++ [w.1]
    by_cases hrw : r = w.1
    · simp [hrw]
    · simp only [Bool.false_eq_true, false_and, if_false, if_neg hrw] at hr
      exact List.mem_append_left _ (hs r hr)

theorem map_fst_filterMap (m : String → Option String) (l : List String) :
    (l.filterMap (fun k => (m k).map (fun v => (k, v)))).map Prod.fst =
      l.filter (fun k => (m k).isSome) := by
  induction l with
  | nil => rfl
  | cons a rest ih =>
    cases h : m a <;> simp [List.filterMap_cons, List.filter_cons, h, ih]

/-- C2 counterexample: in fuzzy mode `Iterate` can visit a key that is not
currently live.  After `Set("A-B", "")` then `Set("AB", "Y")`, the key
`"A-B"` has no cache entry (it was never live), yet `Iterate` visits it —
via the fuzzy fallback in `get` — with its alias's link. -/
theorem C2_fuzzy_counterexample :
    (applySets (emptyStore true) [("A-B", ""), ("AB", "Y")]).Iterate =
      [("AB", "Y"), ("A-B", "Y")] ∧
    (applySets (emptyStore true) [("A-B", ""), ("AB", "Y")]).cache "A-B" = none := by
  constructor <;> decide

/-- C2 corrected: in NON-fuzzy mode `Iterate` visits exactly the
currently-live keys, each exactly once, most recently written first (the
deduplicated reverse order sequence filtered to cached keys, paired with
their links); and the claim's two concrete examples hold in both modes. -/
theorem C2_iterate_amended :
    (∀ ws : List (String × String),
      (applySets (emptyStore false) ws).Iterate =
        (dedupKeys (applySets (emptyStore false) ws).order.reverse []).filterMap
          (fun k => ((applySets (emptyStore false) ws).cache k).map (fun v => (k, v))) ∧
      ((applySets (emptyStore false) ws).Iterate.map Prod.fst).Nodup ∧
      (∀ k, k ∈ (applySets (emptyStore false) ws).Iterate.map Prod.fst ↔
        (applySets (emptyStore false) ws).cache k ≠ none)) ∧
    (∀ fz : Bool,
      (applySets (emptyStore fz) [("a", "X"), ("b", "Y"), ("a", "Z")]).Iterate =
        [("a", "Z"), ("b", "Y")]) ∧
    (∀ fz : Bool,
      (applySets (emptyStore fz) [("a", "X"), ("b", "Y"), ("a", "")]).Iterate =
        [("b", "Y")]) := by
  refine ⟨?_, ?_, ?_⟩
  · intro ws
    have hf : (applySets (emptyStore false) ws).fuzzy = false := applySets_fuzzy ws _
    have hform := iterGo_nonfuzzy hf ((applySets (emptyStore false) ws).order.reverse) []
    have hit : (applySets (emptyStore false) ws).Iterate =
        iterGo (applySets (emptyStore false) ws)
          ((applySets (emptyStore false) ws).order.reverse) [] := rfl
    refine ⟨hit ▸ hform, ?_, ?_⟩
    · rw [hit, hform, map_fst_filterMap]
      exact (dedupKeys_nodup _ _).filter _
    · intro k
      rw [hit, hform, map_fst_filterMap]
      constructor
      · intro hk
        have := (List.mem_filter.mp hk).2
        simpa [Option.isSome_iff_ne_none] using this
      · intro hk
        refine List.mem_filter.mpr ⟨?_, by simpa [Option.isSome_iff_ne_none] using hk⟩
        have hmem : k ∈ (applySets (emptyStore false) ws).order :=
          applySets_cache_mem_order ws (emptyStore false) rfl
            (fun q hq => absurd rfl hq) k hk
        exact mem_dedupKeys _ [] k (List.mem_reverse.mpr hmem) (List.not_mem_nil k)
  · intro fz; cases fz <;> decide
  · intro fz; cases fz <;> decide

theorem cleanStr_not_mem {x : String} (h : cleanStr x = true) :
    ' ' ∉ x.data ∧ '\n' ∉ x.data ∧ '\r' ∉ x.data := by
  refine ⟨?_, ?_, ?_⟩ <;> intro hm <;>
    have hc := List.all_eq_true.mp h _ hm <;> simp [cleanChar] at hc

theorem splitOnGo_no_sep (sep : Char) :
    ∀ (x acc : List Char), sep ∉ x → splitOnGo sep acc x = [acc.reverse ++ x] := by
  intro x
  induction x with
  | nil => intro acc _; simp [splitOnGo]
  | cons c rest ih =>
    intro acc h
    have hc : ¬c = sep := fun e => h (e ▸ List.mem_cons_self c rest)
    rw [splitOnGo, if_neg hc, ih (c :: acc) (fun hm => h (List.mem_cons_of_mem c hm))]
    simp

theorem splitOnGo_sep_split (sep : Char) :
    ∀ (x acc rest : List Char), sep ∉ x →
      splitOnGo sep acc (x ++ sep :: rest) = (acc.reverse ++ x) :: splitOnGo sep [] rest := by
  intro x
  induction x with
  | nil => intro acc rest _; simp [splitOnGo]
  | cons c x' ih =>
    intro acc rest h
    have hc : ¬c = sep := fun e => h (e ▸ List.mem_cons_self c x')
    rw [List.cons_append, splitOnGo, if_neg hc,
      ih (c :: acc) rest (fun hm => h (List.mem_cons_of_mem c hm))]
    simp

theorem splitOnChar_pair {k l : List Char} (hk : ' ' ∉ k) (hl : ' ' ∉ l) :
    splitOnChar ' ' (k ++ ' ' :: l) = [k, l] := by
  unfold splitOnChar
  rw [splitOnGo_sep_split ' ' k [] l hk, splitOnGo_no_sep ' ' l [] hl]
  simp

theorem splitLinesGo_no_nl :
    ∀ (x acc rest : List Char), '\n' ∉ x →
      splitLinesGo acc (x ++ '\n' :: rest) =
        dropCR (acc.reverse ++ x) :: splitLinesGo [] rest := by
  intro x
  induction x with
  | nil => intro acc rest _; simp [splitLinesGo]
  | cons c x' ih =>
    intro acc rest h
    have hc : ¬c = '\n' := fun e => h (e ▸ List.mem_cons_self c x')
    rw [List.cons_append, splitLinesGo, if_neg hc,
      ih (c :: acc) rest (fun hm => h (List.mem_cons_of_mem c hm))]
    simp

/-- Splitting into lines distributes over a newline-terminated prefix. -/
theorem splitLinesGo_append_terminated :
    ∀ (x : List Char), x ≠ [] → x.getLast? = some '\n' →
      ∀ (acc rest : List Char),
        splitLinesGo acc (x ++ rest) = splitLinesGo acc x ++ splitLines rest := by
  intro x
  induction x with
  | nil => intro h; exact absurd rfl h
  | cons c x' ih =>
    intro _ hlast acc rest
    cases x' with
    | nil =>
      have hc : c = '\n' := by simpa using hlast
      subst hc
      simp [splitLinesGo, splitLines]
    | cons d x'' =>
      have hlast' : (d :: x'').getLast? = some '\n' := by
        rwa [List.getLast?_cons_cons] at hlast
      by_cases hc : c = '\n'
      · subst hc
        have h1 : splitLinesGo acc (('\n' :: (d :: x'')) ++ rest) =
            dropCR acc.reverse :: splitLinesGo [] ((d :: x'') ++ rest) := by
          rw [List.cons_append, splitLinesGo, if_pos rfl]
        have h2 : splitLinesGo acc ('\n' :: (d :: x'')) =
            dropCR acc.reverse :: splitLinesGo [] (d :: x'') := by
          rw [splitLinesGo, if_pos rfl]
        rw [h1, h2, ih (by simp) hlast' [] rest]
        simp
      · have h1 : splitLinesGo acc ((c :: (d :: x'')) ++ rest) =
            splitLinesGo (c :: acc) ((d :: x'') ++ rest) := by
          rw [List.cons_append, splitLinesGo, if_neg hc]
        have h2 : splitLinesGo acc (c :: (d :: x'')) =
            splitLinesGo (c :: acc) (d :: x'') := by
          rw [splitLinesGo, if_neg hc]
        rw [h1, h2, ih (by simp) hlast' (c :: acc) rest]

theorem record_eq (n l : String) : record n l = recordLine n l ++ ['\n'] := by
  simp [record, recordLine]

theorem record_getLast (n l : String) : (record n l).getLast? = some '\n' := by
  rw [record_eq]; exact List.getLast?_concat _

theorem record_ne_nil (n l : String) : record n l ≠ [] := by
  rw [record_eq]; simp

theorem nl_not_mem_recordLine {n l : String} (hn : '\n' ∉ n.data) (hl : '\n' ∉ l.data) :
    '\n' ∉ recordLine n l := by
  simp only [recordLine, List.mem_append, List.mem_cons]
  rintro (h | h | h)
  · exact hn h
  · exact absurd h (by decide)
  · exact hl h

theorem dropCR_recordLine {n l : String} (hl : '\r' ∉ l.data) :
    dropCR (recordLine n l) = recordLine n l := by
  unfold dropCR
  rw [if_neg]
  rcases List.eq_nil_or_concat l.data with h | ⟨ys, a, h⟩
  · rw [recordLine, h]
    rw [show n.data ++ [' '] = n.data ++ [' '] from rfl, List.getLast?_concat]
    decide
  · rw [recordLine, h, List.concat_eq_append]
    rw [show n.data ++ ' ' :: (ys ++ [a]) = (n.data ++ ' ' :: ys) ++ [a] by simp]
    rw [List.getLast?_concat]
    have ha : a ≠ '\r' := fun e => hl (h ▸ (by simp [e]))
    simp [ha]

theorem concatRecords_nil : concatRecords [] = [] := rfl

theorem concatRecords_cons (w : String × String) (ws : List (String × String)) :
    concatRecords (w :: ws) = record w.1 w.2 ++ concatRecords ws := by
  simp [concatRecords]

theorem concatRecords_append (xs ys : List (String × String)) :
    concatRecords (xs ++ ys) = concatRecords xs ++ concatRecords ys := by
  simp [concatRecords]

/-- Lines of a record followed by anything: the record is one line. -/
theorem splitLines_record_append {n l : String} (rest : List Char)
    (hn : '\n' ∉ n.data) (hl : '\n' ∉ l.data) :
    splitLines (record n l ++ rest) = dropCR (recordLine n l) :: splitLines rest := by
  rw [record_eq, List.append_assoc, List.singleton_append]
  rw [splitLines, splitLinesGo_no_nl (recordLine n l) [] rest (nl_not_mem_recordLine hn hl)]
  simp [splitLines]

theorem splitLines_concatRecords_append (xs ys : List (String × String)) :
    splitLines (concatRecords (xs ++ ys)) =
      splitLines (concatRecords xs) ++ splitLines (concatRecords ys) := by
  induction xs with
  | nil => simp [concatRecords_nil, splitLines, splitLinesGo]
  | cons w rest ih =>
    rw [List.cons_append, concatRecords_cons, concatRecords_cons]
    have hL : splitLines (record w.1 w.2 ++ concatRecords (rest ++ ys)) =
        splitLinesGo [] (record w.1 w.2) ++ splitLines (concatRecords (rest ++ ys)) := by
      rw [splitLines]
      exact splitLinesGo_append_terminated _ (record_ne_nil _ _) (record_getLast _ _) [] _
    have hR : splitLines (record w.1 w.2 ++ concatRecords rest) =
        splitLinesGo [] (record w.1 w.2) ++ splitLines (concatRecords rest) := by
      rw [splitLines]
      exact splitLinesGo_append_terminated _ (record_ne_nil _ _) (record_getLast _ _) [] _
    rw [hL, hR, ih, List.append_assoc]

/-- Lines of a clean write sequence's log: one line per write. -/
theorem splitLines_concatRecords (ws : List (String × String))
    (hc : cleanWrites ws = true) :
    splitLines (concatRecords ws) = ws.map (fun w => recordLine w.1 w.2) := by
  induction ws with
  | nil => rfl
  | cons w rest ih =>
    have hw : cleanStr w.1 = true ∧ cleanStr w.2 = true ∧ cleanWrites rest = true := by
      simp only [cleanWrites, List.all_cons, Bool.and_eq_true] at hc
      exact ⟨hc.1.1, hc.1.2, hc.2⟩
    rw [concatRecords_cons,
      splitLines_record_append _ (cleanStr_not_mem hw.1).2.1 (cleanStr_not_mem hw.2.1).2.1,
      dropCR_recordLine (cleanStr_not_mem hw.2.1).2.2, ih hw.2.2, List.map_cons]

theorem replayLine_recordLine (s : FileStore) {n l : String}
    (hn : ' ' ∉ n.data) (hl : ' ' ∉ l.data) :
    replayLine s (recordLine n l) = some (writeStep s (n, l)) := by
  unfold replayLine
  rw [show recordLine n l = n.data ++ ' ' :: l.data from rfl, splitOnChar_pair hn hl]
  rfl

theorem replay_recordLines (ws : List (String × String)) :
    ∀ s : FileStore, cleanWrites ws = true →
      replay s (ws.map (fun w => recordLine w.1 w.2)) =
        some (ws.foldl writeStep s) := by
  induction ws with
  | nil => intro s _; rfl
  | cons w rest ih =>
    intro s hc
    have hw : cleanStr w.1 = true ∧ cleanStr w.2 = true ∧ cleanWrites rest = true := by
      simp only [cleanWrites, List.all_cons, Bool.and_eq_true] at hc
      exact ⟨hc.1.1, hc.1.2, hc.2⟩
    rw [List.map_cons, replay,
      replayLine_recordLine s (cleanStr_not_mem hw.1).1 (cleanStr_not_mem hw.2.1).1]
    exact ih (writeStep s w) hw.2.2

theorem Set_as_writeStep (s : FileStore) (w : String × String) :
    (FileStore.Set s w.1 w.2 true).1 =
      { writeStep s w with file := s.file ++ record w.1 w.2 } := rfl

theorem foldl_writeStep_setFile (ws : List (String × String)) :
    ∀ (s : FileStore) (F : List Char),
      ws.foldl writeStep { s with file := F } = { ws.foldl writeStep s with file := F } := by
  induction ws with
  | nil => intro s F; rfl
  | cons w rest ih =>
    intro s F
    rw [List.foldl_cons, List.foldl_cons,
      show writeStep { s with file := F } w = { writeStep s w with file := F } from rfl]
    exact ih (writeStep s w) F

/-- A successful write sequence is replay's fold plus the log growth. -/
theorem applySets_components (ws : List (String × String)) :
    ∀ s : FileStore,
      applySets s ws = { ws.foldl writeStep s with file := s.file ++ concatRecords ws } := by
  induction ws with
  | nil => intro s; simp [applySets, concatRecords]
  | cons w rest ih =>
    intro s
    rw [applySets_cons, ih ((FileStore.Set s w.1 w.2 true).1), Set_as_writeStep,
      foldl_writeStep_setFile]
    simp [concatRecords_cons, List.append_assoc]

/-- C3 amended: for write sequences whose keys and links contain no space,
newline or carriage return, reopening the written file reconstructs the
store exactly, so `Get` returns identical results for every key. -/
theorem C3_reopen_identity (fz : Bool) (ws : List (String × String))
    (hc : cleanWrites ws = true) :
    openChars fz (applySets (emptyStore fz) ws).file = some (applySets (emptyStore fz) ws) ∧
    (∀ t, openChars fz (applySets (emptyStore fz) ws).file = some t →
      ∀ k, t.Get k = (applySets (emptyStore fz) ws).Get k) := by
  have hfile : (applySets (emptyStore fz) ws).file = concatRecords ws := by
    rw [applySets_components]
    rfl
  have hbase : FileStore.mk fz [] (fun _ => none) (concatRecords ws) =
      { emptyStore fz with file := concatRecords ws } := rfl
  have hmain : openChars fz (applySets (emptyStore fz) ws).file =
      some (applySets (emptyStore fz) ws) := by
    rw [hfile]
    unfold openChars
    rw [splitLines_concatRecords ws hc, hbase]
    rw [replay_recordLines ws _ hc]
    congr 1
    rw [applySets_components ws (emptyStore fz), foldl_writeStep_setFile]
    rfl
  refine ⟨hmain, fun t ht k => ?_⟩
  rw [hmain] at ht
  rw [Option.some.inj ht]

/-- C3 witness: a concrete clean sequence round-trips. -/
theorem C3_reopen_identity_w :
    openChars false (applySets (emptyStore false) [("a", "x"), ("a", "")]).file =
      some (applySets (emptyStore false) [("a", "x"), ("a", "")]) :=
  (C3_reopen_identity false [("a", "x"), ("a", "")] (by decide)).1

/-- C3 counterexample: with no restriction on the strings the claim
fails — a link containing a space yields a three-field log line, and
reopening the file produces no store at all. -/
theorem C3_space_counterexample :
    (openChars false (applySets (emptyStore false) [("a", "x y")]).file).isNone = true := by
  decide

theorem splitOnGo_ne_nil (sep : Char) :
    ∀ (x acc : List Char), splitOnGo sep acc x ≠ [] := by
  intro x
  induction x with
  | nil => intro acc; simp [splitOnGo]
  | cons c rest ih =>
    intro acc
    by_cases hc : c = sep
    · rw [splitOnGo, if_pos hc]; simp
    · rw [splitOnGo, if_neg hc]; exact ih (c :: acc)

theorem splitOnGo_length_ge_two (sep : Char) :
    ∀ (x acc : List Char), sep ∈ x → 2 ≤ (splitOnGo sep acc x).length := by
  intro x
  induction x with
  | nil => intro acc h; simp at h
  | cons c rest ih =>
    intro acc h
    by_cases hc : c = sep
    · rw [splitOnGo, if_pos hc]
      have hpos : 0 < (splitOnGo sep [] rest).length :=
        List.length_pos.mpr (splitOnGo_ne_nil sep rest [])
      simp only [List.length_cons]
      omega
    · rw [splitOnGo, if_neg hc]
      refine ih (c :: acc) ?_
      rcases List.mem_cons.mp h with he | hm
      · exact absurd he.symm hc
      · exact hm

/-- A space-free key followed by a space-containing link splits into more
than two fields. -/
theorem fields_gt_two {kd ld : List Char} (hk : ' ' ∉ kd) (hsp : ' ' ∈ ld) :
    2 < (splitOnChar ' ' (kd ++ ' ' :: ld)).length := by
  unfold splitOnChar
  rw [splitOnGo_sep_split ' ' kd [] ld hk]
  have h2 := splitOnGo_length_ge_two ' ' ld [] hsp
  simp only [List.length_cons]
  omega

/-- The scanner's token for the bad record still has more than two
fields, even after a trailing carriage return is stripped. -/
theorem dropCR_recordLine_fields {k L : String} (hk : ' ' ∉ k.data)
    (hsp : ' ' ∈ L.data) :
    2 < (splitOnChar ' ' (dropCR (recordLine k L))).length := by
  unfold dropCR
  split_ifs with h
  · rcases List.eq_nil_or_concat L.data with h0 | ⟨ys, a, h0⟩
    · rw [h0] at hsp; simp at hsp
    · rw [List.concat_eq_append] at h0
      have hsplit : recordLine k L = (k.data ++ ' ' :: ys) ++ [a] := by
        rw [recordLine, h0]; simp
      have ha : a = '\r' := by
        rw [hsplit, List.getLast?_concat] at h
        exact Option.some.inj h
      have hys : ' ' ∈ ys := by
        rcases List.mem_append.mp (h0 ▸ hsp) with hy | hlast
        · exact hy
        · simp only [List.mem_singleton] at hlast
          rw [ha] at hlast
          exact absurd hlast (by decide)
      rw [hsplit, List.dropLast_concat]
      exact fields_gt_two hk hys
  · show 2 < (splitOnChar ' ' (k.data ++ ' ' :: L.data)).length
    exact fields_gt_two hk hsp

theorem replayLine_none_of_long {line : List Char}
    (h : 2 < (splitOnChar ' ' line).length) (s : FileStore) :
    replayLine s line = none := by
  rcases hsp : splitOnChar ' ' line with _ | ⟨a, _ | ⟨b, _ | ⟨c, tl⟩⟩⟩
  · rw [hsp] at h; simp at h
  · rw [hsp] at h; simp at h
  · rw [hsp] at h; simp at h
  · unfold replayLine
    rw [hsp]

/-- A malformed line anywhere in the file makes the whole replay fail. -/
theorem replay_none_of_bad :
    ∀ (lines : List (List Char)) (s : FileStore),
      (∃ l ∈ lines, 2 < (splitOnChar ' ' l).length) → replay s lines = none := by
  intro lines
  induction lines with
  | nil => intro s h; simp at h
  | cons line rest ih =>
    intro s h
    rcases h with ⟨l, hl, hlen⟩
    rcases List.mem_cons.mp hl with he | hm
    · subst he
      rw [replay, replayLine_none_of_long hlen s]
    · cases hrl : replayLine s line with
      | none => rw [replay, hrl]
      | some t =>
        rw [replay, hrl]
        exact ih t ⟨l, hm, hlen⟩

/-- C10 corrected: for a key free of spaces and newlines and a link that
contains a space but no newline, `Set` succeeds, `Get` then sees the
value, the persisted line has more than two space-separated fields, and
every later `Open` of any log containing that record fails with the
invalid-line error (no store is produced). -/
theorem C10_unvalidated_set_breaks_open (k L : String) (hk1 : ' ' ∉ k.data)
    (hk2 : '\n' ∉ k.data) (hsp : ' ' ∈ L.data) (hnl : '\n' ∉ L.data) :
    (∀ s : FileStore, (FileStore.Set s k L true).2 = true) ∧
    (∀ s : FileStore, ((FileStore.Set s k L true).1).Get k = (L, true)) ∧
    2 < (splitOnChar ' ' (recordLine k L)).length ∧
    (∀ (fz : Bool) (prior later : List (String × String)),
      openChars fz (concatRecords (prior ++ (k, L) :: later)) = none) := by
  have hL : L ≠ "" := by
    intro he; rw [he] at hsp; simp at hsp
  refine ⟨fun s => rfl, fun s => set_get_aux s k L hL, ?_, ?_⟩
  · show 2 < (splitOnChar ' ' (k.data ++ ' ' :: L.data)).length
    exact fields_gt_two hk1 hsp
  · intro fz prior later
    unfold openChars
    apply replay_none_of_bad
    refine ⟨dropCR (recordLine k L), ?_,
      dropCR_recordLine_fields hk1 hsp⟩
    rw [splitLines_concatRecords_append prior ((k, L) :: later), concatRecords_cons,
      splitLines_record_append _ hk2 hnl]
    exact List.mem_append_right _ (List.mem_cons_self _ _)

/-- C10 witness: `Set("k", "x y")` succeeds, `Get` sees it, and reopening
the resulting one-record log fails. -/
theorem C10_unvalidated_set_breaks_open_w :
    ((FileStore.Set (emptyStore false) "k" "x y" true).1).Get "k" = ("x y", true) ∧
    openChars false (concatRecords ([] ++ ("k", "x y") :: [])) = none :=
  ⟨(C10_unvalidated_set_breaks_open "k" "x y" (by decide) (by decide) (by decide)
      (by decide)).2.1 (emptyStore false),
   (C10_unvalidated_set_breaks_open "k" "x y" (by decide) (by decide) (by decide)
      (by decide)).2.2.2 false [] []⟩

/-- C10 counterexample: with a newline in the link the claim fails — the
record `"k x\ny z\n"` is read back as the two well-formed lines `"k x"`
and `"y z"`, so a later `Open` succeeds even though the link contains a
space. -/
theorem C10_newline_counterexample :
    (openChars false (applySets (emptyStore false) [("k", "x\ny z")]).file).isSome = true ∧
    ((FileStore.Set (emptyStore false) "k" "x\ny z" true).1).Get "k" = ("x\ny z", true) := by
  constructor <;> decide

theorem foldl_writeStep_fuzzy (ws : List (String × String)) :
    ∀ s : FileStore, (ws.foldl writeStep s).fuzzy = s.fuzzy := by
  induction ws with
  | nil => intro s; rfl
  | cons w rest ih => intro s; rw [List.foldl_cons]; exact ih (writeStep s w)

theorem foldl_writeStep_order (ws : List (String × String)) :
    ∀ s : FileStore, (ws.foldl writeStep s).order = s.order ++ ws.map Prod.fst := by
  induction ws with
  | nil => intro s; simp
  | cons w rest ih =>
    intro s
    rw [List.foldl_cons, ih (writeStep s w), List.map_cons]
    show (s.order ++ [w.1]) ++ rest.map Prod.fst = s.order ++ w.1 :: rest.map Prod.fst
    simp

theorem foldl_writeStep_cache (ws : List (String × String)) :
    ∀ s : FileStore, (ws.foldl writeStep s).cache = cacheFold s.fuzzy s.cache ws := by
  induction ws with
  | nil => intro s; rfl
  | cons w rest ih =>
    intro s
    rw [List.foldl_cons, ih (writeStep s w)]
    rfl

theorem applySets_order (ws : List (String × String)) (s : FileStore) :
    (applySets s ws).order = s.order ++ ws.map Prod.fst := by
  rw [applySets_components]
  exact foldl_writeStep_order ws s

theorem cleanWrites_mem {ws : List (String × String)} (h : cleanWrites ws = true)
    {w : String × String} (hw : w ∈ ws) :
    cleanStr w.1 = true ∧ cleanStr w.2 = true := by
  have hall := List.all_eq_true.mp h w hw
  simpa using hall

/-- Every link stored in the cache was written by some `Set` in the
sequence (or was already there). -/
theorem applySets_cache_values (ws : List (String × String)) :
    ∀ (s : FileStore) (q v : String),
      (applySets s ws).cache q = some v →
      v ∈ ws.map Prod.snd ∨ s.cache q = some v := by
  induction ws with
  | nil => intro s q v h; exact Or.inr h
  | cons w rest ih =>
    intro s q v h
    rw [applySets_cons] at h
    rcases ih _ q v h with hm | hbase
    · rw [List.map_cons]; exact Or.inl (List.mem_cons_of_mem _ hm)
    · rw [show ((FileStore.Set s w.1 w.2 true).1).cache q =
        setCache s.fuzzy s.cache w.1 w.2 q from rfl, setCache_eval] at hbase
      by_cases h1 : s.fuzzy = true ∧ q = fuzz w.1
      · rw [if_pos h1] at hbase
        by_cases h2 : w.2 = ""
        · rw [if_pos h2] at hbase; exact absurd hbase (by simp)
        · rw [if_neg h2] at hbase
          exact Or.inl (by
            rw [List.map_cons, ← Option.some.inj hbase]
            exact List.mem_cons_self _ _)
      · rw [if_neg h1] at hbase
        by_cases h3 : q = w.1
        · rw [if_pos h3] at hbase
          by_cases h2 : w.2 = ""
          · rw [if_pos h2] at hbase; exact absurd hbase (by simp)
          · rw [if_neg h2] at hbase
            exact Or.inl (by
              rw [List.map_cons, ← Option.some.inj hbase]
              exact List.mem_cons_self _ _)
        · rw [if_neg h3] at hbase
          exact Or.inr hbase

/-- Lookup through a fold of non-fuzzy `set`s over pairwise distinct keys. -/
theorem cacheFold_lookup (L : List (String × String)) :
    ∀ (m : String → Option String), (L.map Prod.fst).Nodup →
      ∀ q, cacheFold false m L q =
        (match L.find? (fun p => p.1 == q) with
         | some p => if p.2 = "" then none else some p.2
         | none => m q) := by
  induction L with
  | nil => intro m _ q; rfl
  | cons w rest ih =>
    intro m hnd q
    have hnd2 := List.nodup_cons.mp (by rw [List.map_cons] at hnd; exact hnd)
    rw [show cacheFold false m (w :: rest) q =
      cacheFold false (setCache false m w.1 w.2) rest q from rfl]
    rw [ih (setCache false m w.1 w.2) hnd2.2 q, List.find?_cons]
    by_cases hq : w.1 = q
    · have hfr : rest.find? (fun p => p.1 == q) = none := by
        rw [List.find?_eq_none]
        intro p hp hpq
        apply hnd2.1
        have h1 : p.1 = q := beq_iff_eq.mp hpq
        rw [hq, ← h1]
        exact List.mem_map_of_mem Prod.fst hp
      rw [hfr, show (w.1 == q) = true from beq_iff_eq.mpr hq, setCache_eval]
      simp [hq]
    · rw [show (w.1 == q) = false from beq_eq_false_iff_ne.mpr hq]
      cases hfr : rest.find? (fun p => p.1 == q) with
      | some p => rfl
      | none =>
        show setCache false m w.1 w.2 q = m q
        rw [setCache_eval]
        have hqn : ¬q = w.1 := fun e => hq e.symm
        simp [hqn]

theorem find?_key_of_mem {L : List (String × String)} (hnd : (L.map Prod.fst).Nodup)
    {k v : String} (hm : (k, v) ∈ L) :
    L.find? (fun p => p.1 == k) = some (k, v) := by
  induction L with
  | nil => simp at hm
  | cons w rest ih =>
    have hnd2 := List.nodup_cons.mp (by rw [List.map_cons] at hnd; exact hnd)
    rcases List.mem_cons.mp hm with he | hmm
    · rw [List.find?_cons, show (w.1 == k) = true from
        beq_iff_eq.mpr (by rw [← he])]
      rw [he]
    · have hk : w.1 ≠ k := fun e =>
        hnd2.1 (e ▸ (show k ∈ rest.map Prod.fst from List.mem_map_of_mem Prod.fst hmm))
      rw [List.find?_cons, show (w.1 == k) = false from
        beq_eq_false_iff_ne.mpr hk]
      exact ih hnd2.2 hmm

theorem Get_congr_nonfuzzy {s t : FileStore} (hs : s.fuzzy = false)
    (ht : t.fuzzy = false) {n : String} (hc : s.cache n = t.cache n) :
    s.Get n = t.Get n := by
  unfold FileStore.Get
  rw [get_nonfuzzy hs n, get_nonfuzzy ht n]
  unfold mapRead
  rw [hc]

theorem dedupKeys_subset : ∀ (l seen : List String) (k : String),
    k ∈ dedupKeys l seen → k ∈ l := by
  intro l
  induction l with
  | nil => intro seen k h; simp [dedupKeys] at h
  | cons a rest ih =>
    intro seen k h
    by_cases ha : a ∈ seen
    · rw [show dedupKeys (a :: rest) seen = dedupKeys rest (a :: seen) from by
        simp [dedupKeys, ha]] at h
      exact List.mem_cons_of_mem a (ih _ k h)
    · rw [show dedupKeys (a :: rest) seen = a :: dedupKeys rest (a :: seen) from by
        simp [dedupKeys, ha]] at h
      rcases List.mem_cons.mp h with he | hm
      · exact he ▸ List.mem_cons_self a rest
      · exact List.mem_cons_of_mem a (ih _ k hm)

/-- C5 corrected: in NON-fuzzy mode, for write sequences whose strings
contain no space, newline or carriage return: `Dump` writes the lines
collected via `Iterate` in reverse collection order; the collected keys
are exactly the live keys, each once; the dumped file has exactly one
line per currently-live key; and reopening the dumped file yields a store
whose `Get` agrees with the pre-dump store on every key. -/
theorem C5_dump_amended (ws : List (String × String)) (hcw : cleanWrites ws = true)
    (s : FileStore) (hs : s = applySets (emptyStore false) ws) :
    s.Dump = ((s.Iterate.map (fun p => record p.1 p.2)).reverse).flatten ∧
    s.Iterate.map Prod.fst = liveKeys s ∧
    (liveKeys s).Nodup ∧
    (∀ k, k ∈ liveKeys s ↔ s.cache k ≠ none) ∧
    (splitLines s.Dump).length = (liveKeys s).length ∧
    (∃ t, openChars false s.Dump = some t ∧ ∀ k, t.Get k = s.Get k) := by
  have hS : s = applySets (emptyStore false) ws := hs
  have hf : s.fuzzy = false := by rw [hS]; exact applySets_fuzzy ws _
  have hform : s.Iterate =
      (dedupKeys s.order.reverse []).filterMap
        (fun k => (s.cache k).map (fun v => (k, v))) :=
    iterGo_nonfuzzy hf _ _
  have hlk : liveKeys s =
      (dedupKeys s.order.reverse []).filter (fun k => (s.cache k).isSome) := rfl
  have hfst : s.Iterate.map Prod.fst = liveKeys s := by
    rw [hform, map_fst_filterMap, hlk]
  have hnodup : (liveKeys s).Nodup := by
    rw [hlk]
    exact (dedupKeys_nodup _ _).filter _
  have hordermap : s.order = ws.map Prod.fst := by
    rw [hS, applySets_order]
    rfl
  have hinv1 : ∀ k, s.cache k ≠ none → k ∈ s.order := by
    intro k hk
    rw [hS]
    refine applySets_cache_mem_order ws (emptyStore false) rfl
      (fun q hq => absurd rfl hq) k ?_
    rw [← hS]
    exact hk
  have hmem : ∀ k, k ∈ liveKeys s ↔ s.cache k ≠ none := by
    intro k
    rw [hlk]
    constructor
    · intro hk
      have h2 := (List.mem_filter.mp hk).2
      simpa [Option.isSome_iff_ne_none] using h2
    · intro hk
      refine List.mem_filter.mpr ⟨?_, by simpa [Option.isSome_iff_ne_none] using hk⟩
      exact mem_dedupKeys _ [] k (List.mem_reverse.mpr (hinv1 k hk)) (List.not_mem_nil k)
  have hpair : ∀ p ∈ s.Iterate, s.cache p.1 = some p.2 := by
    intro p hp
    rw [hform] at hp
    rcases List.mem_filterMap.mp hp with ⟨a, _, hfa⟩
    cases hca : s.cache a with
    | none => rw [hca] at hfa; simp at hfa
    | some v =>
      rw [hca] at hfa
      simp only [Option.map_some'] at hfa
      have he := Option.some.inj hfa
      rw [← he, hca]
  have hkeys : ∀ p ∈ s.Iterate, p.1 ∈ ws.map Prod.fst := by
    intro p hp
    have h1 : p.1 ∈ s.Iterate.map Prod.fst := List.mem_map_of_mem Prod.fst hp
    rw [hfst, hlk] at h1
    have h2 : p.1 ∈ dedupKeys s.order.reverse [] := (List.mem_filter.mp h1).1
    have h3 : p.1 ∈ s.order := List.mem_reverse.mp (dedupKeys_subset _ _ _ h2)
    rw [← hordermap]
    exact h3
  have hcleanP : cleanWrites s.Iterate.reverse = true := by
    rw [cleanWrites, List.all_eq_true]
    intro p hp
    have hp' : p ∈ s.Iterate := List.mem_reverse.mp hp
    have hk1 : cleanStr p.1 = true := by
      rcases List.mem_map.mp (hkeys p hp') with ⟨w, hw, hw1⟩
      rw [← hw1]
      exact (cleanWrites_mem hcw hw).1
    have hk2 : cleanStr p.2 = true := by
      rcases applySets_cache_values ws (emptyStore false) p.1 p.2
        (by rw [← hS]; exact hpair p hp') with hv | hv
      · rcases List.mem_map.mp hv with ⟨w, hw, hw2⟩
        rw [← hw2]
        exact (cleanWrites_mem hcw hw).2
      · exact absurd hv (by simp [emptyStore])
    simp [hk1, hk2]
  have hdump : s.Dump = concatRecords s.Iterate.reverse := by
    rw [show s.Dump = ((s.Iterate.map (fun p => record p.1 p.2)).reverse).flatten from rfl,
      concatRecords, List.map_reverse]
  have hlines : splitLines s.Dump =
      s.Iterate.reverse.map (fun w => recordLine w.1 w.2) := by
    rw [hdump]
    exact splitLines_concatRecords _ hcleanP
  have hcount : (splitLines s.Dump).length = (liveKeys s).length := by
    rw [hlines, ← hfst]
    simp
  have hnodupRev : ((s.Iterate.reverse).map Prod.fst).Nodup := by
    rw [List.map_reverse]
    refine List.nodup_reverse.mpr ?_
    rw [hfst]
    exact hnodup
  have hopen : openChars false s.Dump =
      some (s.Iterate.reverse.foldl writeStep
        (FileStore.mk false [] (fun _ => none) s.Dump)) := by
    unfold openChars
    rw [hlines]
    exact replay_recordLines _ _ hcleanP
  have hTf : (s.Iterate.reverse.foldl writeStep
      (FileStore.mk false [] (fun _ => none) s.Dump)).fuzzy = false :=
    foldl_writeStep_fuzzy _ _
  have hTc : ∀ k, (s.Iterate.reverse.foldl writeStep
      (FileStore.mk false [] (fun _ => none) s.Dump)).cache k = s.cache k := by
    intro k
    rw [show (s.Iterate.reverse.foldl writeStep
        (FileStore.mk false [] (fun _ => none) s.Dump)).cache =
      cacheFold false (fun _ => none) s.Iterate.reverse from
        foldl_writeStep_cache _ _]
    rw [cacheFold_lookup _ _ hnodupRev k]
    cases hk : s.cache k with
    | some v =>
      have hnoempty : s.cache k ≠ some "" := by
        rw [hS]
        exact applySets_cache_no_empty ws (emptyStore false)
          (fun q => by simp [emptyStore]) k
      have hvne : v ≠ "" := fun he => hnoempty (by rw [hk, he])
      have hmemP : (k, v) ∈ s.Iterate := by
        rw [hform]
        refine List.mem_filterMap.mpr ⟨k, ?_, by rw [hk]; rfl⟩
        refine mem_dedupKeys _ [] k (List.mem_reverse.mpr (hinv1 k ?_)) (List.not_mem_nil k)
        rw [hk]
        simp
      have hfind := find?_key_of_mem hnodupRev (List.mem_reverse.mpr hmemP)
      rw [hfind]
      simp [hvne]
    | none =>
      have hfind : s.Iterate.reverse.find? (fun p => p.1 == k) = none := by
        rw [List.find?_eq_none]
        intro p hp hpk
        have hcp := hpair p (List.mem_reverse.mp hp)
        rw [beq_iff_eq.mp hpk, hk] at hcp
        exact absurd hcp (by simp)
      rw [hfind]
  exact ⟨rfl, hfst, hnodup, hmem, hcount,
    ⟨_, hopen, fun k => Get_congr_nonfuzzy hTf hf (hTc k)⟩⟩

/-- C5 witness: a clean non-fuzzy sequence with an overwrite and a
tombstone — collected keys equal live keys and one dump line per live
key. -/
theorem C5_dump_amended_w :
    (applySets (emptyStore false) [("a", "x"), ("b", "y"), ("a", "")]).Iterate.map Prod.fst =
      liveKeys (applySets (emptyStore false) [("a", "x"), ("b", "y"), ("a", "")]) ∧
    (splitLines (applySets (emptyStore false) [("a", "x"), ("b", "y"), ("a", "")]).Dump).length =
      (liveKeys (applySets (emptyStore false) [("a", "x"), ("b", "y"), ("a", "")])).length :=
  ⟨(C5_dump_amended [("a", "x"), ("b", "y"), ("a", "")] (by decide) _ rfl).2.1,
   (C5_dump_amended [("a", "x"), ("b", "y"), ("a", "")] (by decide) _ rfl).2.2.2.2.1⟩

/-- C5 counterexample: in fuzzy mode dump-and-reopen changes `Get`.
After `Set("a-b","X")`, `Set("a_b","Y")`, `Set("a-b","")` the pre-dump
store does not find `"ab"`, but reopening the dumped file (same fuzzy
setting) finds `("Y", true)` — the dump re-creates the alias entry the
tombstone had removed. -/
theorem C5_fuzzy_counterexample :
    ((openChars true (applySets (emptyStore true)
        [("a-b", "X"), ("a_b", "Y"), ("a-b", "")]).Dump).map
      (fun t => t.Get "ab")) = some ("Y", true) ∧
    (applySets (emptyStore true)
        [("a-b", "X"), ("a_b", "Y"), ("a-b", "")]).Get "ab" = ("", false) := by
  constructor <;> decide

end GoLinks
